import Mathlib

/-!
# Verification of the matrix-multiply cache benchmark (`matrix_product.cpp`)

Shallow embedding of the benchmark's core routines: the flat row-major
matrix layout (`index`), the transposer (`buildTranspose`), the two
multiplication kernels (`multiplyNaive`, `multiplyWithTranspose`), the
checksum loop, and the `main` driver (mode selection from `argv`,
fixed-seed matrix generation, kernel dispatch).

Buffers are `List α`; every read uses the `Option`-returning indexing
`l[i]?` and every write goes through `setChecked`, so an out-of-bounds
access surfaces as `none` rather than undefined behaviour.  The element
type `α` carries arbitrary `Zero`/`Add`/`Mul` structure with *no laws
assumed* where possible, so that equalities proved between the two
kernels hold for IEEE-754 doubles as well: they state that both kernels
perform the *same sequence* of additions and multiplications on the same
operand values, hence produce bit-identical results.
-/

set_option linter.unusedSectionVars false
set_option linter.unusedVariables false

namespace MatrixBench

universe u

variable {α : Type u}

/-- Row-major flat index, `index(row, col) = row*n + col`, as in the C++
lambda `index` shared by all three routines. -/
def index (n row col : Nat) : Nat :=
  row * n + col

/-- Bounds-checked store: models `v[i] = x` on a `std::vector` of fixed
size, returning `none` when the write would be out of bounds. -/
def setChecked (l : List α) (i : Nat) (v : α) : Option (List α) :=
  if i < l.length then some (l.set i v) else none

/-- Embedding of `buildTranspose(mul, mulT, n)`: for all `i, j < n`,
`mulT[index(i,j)] = mul[index(j,i)]`.  The destination buffer `mulT` is
passed in (the caller allocates it) and the updated buffer is returned. -/
def buildTranspose (mul mulT : List α) (n : Nat) : Option (List α) :=
  (List.range n).foldl
    (fun acc i =>
      (List.range n).foldl
        (fun acc2 j => acc2.bind fun r =>
          (mul[index n j i]?).bind fun v => setChecked r (index n i j) v)
        acc)
    (some mulT)

/-- The inner `k`-loop of `multiplyNaive`: `sum = 0; for k < n:
sum += mul1[index(i,k)] * mul2[index(k,j)]`. -/
def dotNaive [Zero α] [Add α] [Mul α] (mul1 mul2 : List α) (n i j : Nat) :
    Option α :=
  (List.range n).foldl
    (fun acc k => acc.bind fun s =>
      ((mul1[index n i k]?).bind fun a =>
        (mul2[index n k j]?).map fun b => a * b).map fun t => s + t)
    (some 0)

/-- The inner `k`-loop of `multiplyWithTranspose`: identical to
`dotNaive` except that the second operand is read as
`mul2T[index(j,k)]`. -/
def dotTrans [Zero α] [Add α] [Mul α] (mul1 mul2T : List α) (n i j : Nat) :
    Option α :=
  (List.range n).foldl
    (fun acc k => acc.bind fun s =>
      ((mul1[index n i k]?).bind fun a =>
        (mul2T[index n j k]?).map fun b => a * b).map fun t => s + t)
    (some 0)

/-- Embedding of `multiplyNaive(mul1, mul2, res, n)`: for each `i, j` the local
accumulator runs over `k` and is stored once into `res[index(i,j)]`. -/
def multiplyNaive [Zero α] [Add α] [Mul α] (mul1 mul2 res : List α)
    (n : Nat) : Option (List α) :=
  (List.range n).foldl
    (fun acc i =>
      (List.range n).foldl
        (fun acc2 j => acc2.bind fun r =>
          (dotNaive mul1 mul2 n i j).bind fun s =>
            setChecked r (index n i j) s)
        acc)
    (some res)

/-- Embedding of `multiplyWithTranspose(mul1, mul2T, res, n)`: same loop nest as
`multiplyNaive` but the inner loop reads the transposed operand
row-wise (`mul2T[index(j,k)]`). -/
def multiplyWithTranspose [Zero α] [Add α] [Mul α] (mul1 mul2T res : List α)
    (n : Nat) : Option (List α) :=
  (List.range n).foldl
    (fun acc i =>
      (List.range n).foldl
        (fun acc2 j => acc2.bind fun r =>
          (dotTrans mul1 mul2T n i j).bind fun s =>
            setChecked r (index n i j) s)
        acc)
    (some res)

/-- The checksum loop of `main`: `checksum = 0.0; for i < n*n:
checksum += res[i]`. -/
def checksum [Zero α] [Add α] (res : List α) (n : Nat) : Option α :=
  (List.range (n * n)).foldl
    (fun acc p => acc.bind fun s => (res[p]?).map fun v => s + v)
    (some 0)

/-! ## Proof-side views of the same loops

`gridWrite` abstracts the shared shape of `buildTranspose`,
`multiplyNaive` and `multiplyWithTranspose`: a double loop over
`i, j < n` storing a per-cell value at `index(i,j)`.  Each routine is
definitionally equal to an instance of it (proved by `rfl` below), so
the loop lemmas are established once. -/

/-- One row of the double write loop: iterations `j = 0, …, m-1` of the
inner loop at row `i`. -/
def rowWrite (f : Nat → Nat → Option α) (n i : Nat)
    (acc : Option (List α)) (m : Nat) : Option (List α) :=
  (List.range m).foldl
    (fun acc2 j => acc2.bind fun r =>
      (f i j).bind fun v => setChecked r (index n i j) v)
    acc

/-- Rows `i = 0, …, m-1` of the double write loop. -/
def gridWriteUpTo (f : Nat → Nat → Option α) (n : Nat)
    (init : Option (List α)) (m : Nat) : Option (List α) :=
  (List.range m).foldl (fun acc i => rowWrite f n i acc n) init

/-- The full double write loop over `i, j < n`. -/
def gridWrite (f : Nat → Nat → Option α) (n : Nat)
    (init : Option (List α)) : Option (List α) :=
  gridWriteUpTo f n init n

/-- Pure value of the naive inner product: the same left fold over
`k < n`, with reads replaced by `getD` (they are in bounds whenever the
`Option` version succeeds). -/
def dotNaiveVal [Zero α] [Add α] [Mul α] (mul1 mul2 : List α)
    (n i j : Nat) : α :=
  (List.range n).foldl
    (fun s k => s + mul1.getD (index n i k) 0 * mul2.getD (index n k j) 0) 0

/-- Pure value of the transposed inner product. -/
def dotTransVal [Zero α] [Add α] [Mul α] (mul1 mul2T : List α)
    (n i j : Nat) : α :=
  (List.range n).foldl
    (fun s k => s + mul1.getD (index n i k) 0 * mul2T.getD (index n j k) 0) 0

/-- Pure value of the checksum loop. -/
def checksumVal [Zero α] [Add α] (res : List α) (n : Nat) : α :=
  (List.range (n * n)).foldl (fun s p => s + res.getD p 0) 0

/-! ## The `main` driver -/

/-- Substring test: `s.find(pat) != std::string::npos`, i.e. `pat`
occurs contiguously somewhere in `s`. -/
def strContains (s pat : String) : Bool :=
  (List.range (s.data.length + 1)).any fun i =>
    pat.data.isPrefixOf (s.data.drop i)

/-- The fixed seed `main` passes to `std::mt19937`; the constructed
`std::random_device rd` is never used to seed. -/
def seedConst : Nat := 89899898

/-- The benchmark's hard-coded dimension, `const int n = 2'000`. -/
def dimConst : Nat := 2000

/-- The first generation loop of `main`: `mul1[i] = dist(gen)` for
`i < n*n`.  The PRNG-plus-distribution pipeline (`std::mt19937` with
`std::uniform_real_distribution`, library code outside this repository)
is modelled as a pure stream `mt : seed → draw index → value`; `mul1`
consumes draws `0, …, n*n-1`. -/
def genMul1 (mt : Nat → Nat → α) (n : Nat) : List α :=
  (List.range (n * n)).map fun i => mt seedConst i

/-- The second generation loop of `main`: `mul2[i] = dist(gen)` draws
the next `n*n` values `n*n, …, 2*n*n-1` of the same stream. -/
def genMul2 (mt : Nat → Nat → α) (n : Nat) : List α :=
  (List.range (n * n)).map fun i => mt seedConst (n * n + i)

/-- What one process invocation computes: the two generated input
matrices, the mode label printed on the report line, the result matrix
of the kernel that ran, and the checksum accumulator. -/
structure MainOut (α : Type u) where
  mul1 : List α
  mul2 : List α
  label : String
  result : List α
  sum : α

/-- Embedding of `main`.  Here `argv` is the full argument vector (including
`argv[0]`); `entropy` models the `std::random_device rd` that `main`
constructs but never uses; `mt` models the seeded PRNG stream (see
`genMul1`).  `transposeMode` is computed once, up front, by OR-ing a
substring test over every `argv` element; the buffers are
value-initialised to zero (`std::vector<double>(n*n)`); exactly one of
the two kernel branches runs.  `flushCache` and the `sleep` calls
only touch timing, not values, and are omitted. -/
def mainRun [Zero α] [Add α] [Mul α] (argv : List String) (entropy : Nat)
    (mt : Nat → Nat → α) (n : Nat) : Option (MainOut α) :=
  let transposeMode := argv.any fun s => strContains s "transpose"
  let mul1 := genMul1 mt n
  let mul2 := genMul2 mt n
  let resA : List α := List.replicate (n * n) 0
  let resB : List α := List.replicate (n * n) 0
  let mul2T : List α := List.replicate (n * n) 0
  if !transposeMode then
    (multiplyNaive mul1 mul2 resA n).bind fun r =>
      (checksum r n).map fun c =>
        { mul1 := mul1, mul2 := mul2, label := "naive", result := r, sum := c }
  else
    (buildTranspose mul2 mul2T n).bind fun t =>
      (multiplyWithTranspose mul1 t resB n).bind fun r =>
        (checksum r n).map fun c =>
          { mul1 := mul1, mul2 := mul2, label := "transposed", result := r,
            sum := c }

/-- The n×n identity matrix in the same flat row-major layout (used by
the spec's hand-computable scenario; `p/n` is the row of flat index `p`
and `p%n` its column). -/
def identityMat (α : Type u) [Zero α] [One α] (n : Nat) : List α :=
  (List.range (n * n)).map fun p => if p / n = p % n then 1 else 0

/-! ## Lemmas on the flat index -/

theorem index_lt {n i j : Nat} (hi : i < n) (hj : j < n) :
    index n i j < n * n := by
  have h2 : (i + 1) * n ≤ n * n := Nat.mul_le_mul_right n hi
  have e : (i + 1) * n = i * n + n := by ring
  have : index n i j = i * n + j := rfl
  omega

theorem index_div {n i j : Nat} (hj : j < n) : index n i j / n = i := by
  have hn : 0 < n := lt_of_le_of_lt (Nat.zero_le j) hj
  have : index n i j = n * i + j := by
    unfold index; ring
  rw [this, Nat.mul_add_div hn, Nat.div_eq_of_lt hj]
  omega

theorem index_mod {n i j : Nat} (hj : j < n) : index n i j % n = j := by
  have : index n i j = n * i + j := by
    unfold index; ring
  rw [this, Nat.mul_add_mod, Nat.mod_eq_of_lt hj]

theorem index_inj {n i j i2 j2 : Nat} (hj : j < n) (hj2 : j2 < n)
    (h : index n i j = index n i2 j2) : i = i2 ∧ j = j2 := by
  constructor
  · rw [← index_div (n := n) (i := i) hj, h, index_div hj2]
  · rw [← index_mod (n := n) (i := i) hj, h, index_mod hj2]

theorem index_surj {n p : Nat} (hp : p < n * n) :
    p = index n (p / n) (p % n) ∧ p / n < n ∧ p % n < n := by
  have hn : 0 < n := by
    rcases Nat.eq_zero_or_pos n with h | h
    · subst h; omega
    · exact h
  refine ⟨?_, ?_, Nat.mod_lt p hn⟩
  · have h1 := Nat.div_add_mod p n
    have h2 : p / n * n = n * (p / n) := Nat.mul_comm _ _
    unfold index
    omega
  · rw [Nat.div_lt_iff_lt_mul hn]
    omega

/-! ## Generic fold lemmas -/

/-- A left fold whose step reads an `Option` value and adds it to the
accumulator equals `some` of the pure fold, provided every read
succeeds. -/
theorem foldl_opt_add {β : Type u} [Add β] (l : List Nat)
    (g : Nat → Option β) (gv : Nat → β)
    (hg : ∀ k ∈ l, g k = some (gv k)) (s0 : β) :
    l.foldl (fun acc k => acc.bind fun s => (g k).map fun v => s + v)
        (some s0)
      = some (l.foldl (fun s k => s + gv k) s0) := by
  induction l generalizing s0 with
  | nil => rfl
  | cons x xs ih =>
    have hx : g x = some (gv x) := hg x (List.mem_cons_self x xs)
    simp only [List.foldl_cons, hx, Option.some_bind, Option.map_some]
    exact ih (fun k hk => hg k (List.mem_cons_of_mem x hk)) (s0 + gv x)

/-- Two left folds agree when their step functions agree on every
element of the list. -/
theorem foldl_congr_mem {β : Type u} {γ : Type} (l : List γ)
    (f g : β → γ → β) (b : β) (h : ∀ x ∈ l, ∀ s, f s x = g s x) :
    l.foldl f b = l.foldl g b := by
  induction l generalizing b with
  | nil => rfl
  | cons x xs ih =>
    simp only [List.foldl_cons, h x (List.mem_cons_self x xs) b]
    exact ih (g b x) (fun y hy s => h y (List.mem_cons_of_mem x hy) s)

/-- A left fold of additions, rebased to a `Finset` sum. -/
theorem foldl_add_eq_sum {β : Type u} [AddCommMonoid β] (g : Nat → β)
    (m : Nat) (s0 : β) :
    (List.range m).foldl (fun s k => s + g k) s0
      = s0 + ∑ k ∈ Finset.range m, g k := by
  induction m with
  | zero => simp
  | succ m ih =>
    rw [List.range_succ, List.foldl_append, ih, Finset.sum_range_succ]
    simp [add_assoc]

/-! ## The double write loop -/

theorem rowWrite_succ (f : Nat → Nat → Option α) (n i : Nat)
    (acc : Option (List α)) (m : Nat) :
    rowWrite f n i acc (m + 1)
      = (rowWrite f n i acc m).bind fun r =>
          (f i m).bind fun v => setChecked r (index n i m) v := by
  unfold rowWrite
  rw [List.range_succ, List.foldl_append]
  rfl

theorem gridWriteUpTo_succ (f : Nat → Nat → Option α) (n : Nat)
    (init : Option (List α)) (m : Nat) :
    gridWriteUpTo f n init (m + 1)
      = rowWrite f n m (gridWriteUpTo f n init m) n := by
  unfold gridWriteUpTo
  rw [List.range_succ, List.foldl_append]
  rfl

/-- One inner loop at row `i`: all cells `j < m` of that row receive
`f i j`, every other position is untouched, and no write fails. -/
theorem rowWrite_spec (f : Nat → Nat → Option α) (n i : Nat) (hi : i < n)
    (hf : ∀ j, j < n → (f i j).isSome) (r0 : List α)
    (h0 : r0.length = n * n) :
    ∀ m, m ≤ n →
      ∃ r, rowWrite f n i (some r0) m = some r ∧ r.length = n * n ∧
        (∀ j, j < m → r[index n i j]? = f i j) ∧
        (∀ p, (∀ j, j < m → p ≠ index n i j) → r[p]? = r0[p]?) := by
  intro m
  induction m with
  | zero =>
    intro _
    exact ⟨r0, rfl, h0, fun j hj => absurd hj (Nat.not_lt_zero j),
      fun p _ => rfl⟩
  | succ m ih =>
    intro hm
    obtain ⟨r, hr, hlen, hval, hold⟩ := ih (Nat.le_of_succ_le hm)
    have hmn : m < n := Nat.lt_of_lt_of_le (Nat.lt_succ_self m) hm
    obtain ⟨v, hv⟩ := Option.isSome_iff_exists.mp (hf m hmn)
    have hidx : index n i m < r.length := by
      rw [hlen]; exact index_lt hi hmn
    have hset : setChecked r (index n i m) v = some (r.set (index n i m) v) := by
      unfold setChecked
      rw [if_pos hidx]
    refine ⟨r.set (index n i m) v, ?_, ?_, ?_, ?_⟩
    · rw [rowWrite_succ, hr, Option.some_bind, hv, Option.some_bind, hset]
    · rw [List.length_set, hlen]
    · intro j hj
      rcases Nat.lt_succ_iff_lt_or_eq.mp hj with hj | hj
      · have hne : index n i m ≠ index n i j := by
          intro he
          exact absurd (index_inj hmn (Nat.lt_of_lt_of_le hj (Nat.le_of_lt hmn)) he).2.symm
            (Nat.ne_of_lt hj)
        rw [List.getElem?_set_ne hne]
        exact hval j hj
      · subst hj
        rw [List.getElem?_set_self hidx, hv]
    · intro p hp
      have hne : index n i m ≠ p :=
        fun he => hp m (Nat.lt_succ_self m) he.symm
      rw [List.getElem?_set_ne hne]
      exact hold p fun j hj => hp j (Nat.lt_succ_of_lt hj)

/-- Rows `i < m` of the double loop: every cell of those rows receives
`f i j`, the rest of the buffer is untouched, and no step fails. -/
theorem gridWriteUpTo_spec (f : Nat → Nat → Option α) (n : Nat)
    (hf : ∀ i j, i < n → j < n → (f i j).isSome) (r0 : List α)
    (h0 : r0.length = n * n) :
    ∀ m, m ≤ n →
      ∃ r, gridWriteUpTo f n (some r0) m = some r ∧ r.length = n * n ∧
        (∀ i j, i < m → j < n → r[index n i j]? = f i j) ∧
        (∀ p, (∀ i j, i < m → j < n → p ≠ index n i j) → r[p]? = r0[p]?) := by
  intro m
  induction m with
  | zero =>
    intro _
    exact ⟨r0, rfl, h0, fun i j hi => absurd hi (Nat.not_lt_zero i),
      fun p _ => rfl⟩
  | succ m ih =>
    intro hm
    obtain ⟨r, hr, hlen, hval, hold⟩ := ih (Nat.le_of_succ_le hm)
    have hmn : m < n := Nat.lt_of_lt_of_le (Nat.lt_succ_self m) hm
    obtain ⟨r2, hr2, hlen2, hval2, hold2⟩ :=
      rowWrite_spec f n m hmn (fun j hj => hf m j hmn hj) r hlen n (Nat.le_refl n)
    refine ⟨r2, ?_, hlen2, ?_, ?_⟩
    · rw [gridWriteUpTo_succ, hr, hr2]
    · intro i j hi hj
      rcases Nat.lt_succ_iff_lt_or_eq.mp hi with hi2 | hi2
      · have huntouched : ∀ j2, j2 < n → index n i j ≠ index n m j2 := by
          intro j2 hj2 he
          exact absurd (index_inj hj hj2 he).1 (Nat.ne_of_lt hi2)
        rw [hold2 (index n i j) huntouched]
        exact hval i j hi2 hj
      · subst hi2
        exact hval2 j hj
    · intro p hp
      have h1 : r2[p]? = r[p]? :=
        hold2 p fun j hj => hp m j (Nat.lt_succ_self m) hj
      rw [h1]
      exact hold p fun i j hi hj => hp i j (Nat.lt_succ_of_lt hi) hj

/-- The full double write loop: it succeeds and every cell `(i, j)`
holds `f i j`. -/
theorem gridWrite_spec (f : Nat → Nat → Option α) (n : Nat)
    (hf : ∀ i j, i < n → j < n → (f i j).isSome) (r0 : List α)
    (h0 : r0.length = n * n) :
    ∃ r, gridWrite f n (some r0) = some r ∧ r.length = n * n ∧
      ∀ i j, i < n → j < n → r[index n i j]? = f i j := by
  obtain ⟨r, hr, hlen, hval, _⟩ :=
    gridWriteUpTo_spec f n hf r0 h0 n (Nat.le_refl n)
  exact ⟨r, hr, hlen, hval⟩

/-- Routine `buildTranspose` is an instance of the double write loop. -/
theorem buildTranspose_eq_grid (mul mulT : List α) (n : Nat) :
    buildTranspose mul mulT n
      = gridWrite (fun i j => mul[index n j i]?) n (some mulT) := rfl

/-- Routine `multiplyNaive` is an instance of the double write loop. -/
theorem multiplyNaive_eq_grid [Zero α] [Add α] [Mul α]
    (mul1 mul2 res : List α) (n : Nat) :
    multiplyNaive mul1 mul2 res n
      = gridWrite (fun i j => dotNaive mul1 mul2 n i j) n (some res) := rfl

/-- Routine `multiplyWithTranspose` is an instance of the double write loop. -/
theorem multiplyWithTranspose_eq_grid [Zero α] [Add α] [Mul α]
    (mul1 mul2T res : List α) (n : Nat) :
    multiplyWithTranspose mul1 mul2T res n
      = gridWrite (fun i j => dotTrans mul1 mul2T n i j) n (some res) := rfl

/-! ## Specifications of the three routines -/

theorem isSome_of_lt {l : List α} {i : Nat} (h : i < l.length) :
    (l[i]?).isSome := by
  rw [List.getElem?_eq_getElem h]
  rfl

theorem getElem?_eq_getD {l : List α} {i : Nat} [Zero α]
    (h : i < l.length) : l[i]? = some (l.getD i 0) := by
  rw [List.getD_eq_getElem?_getD, List.getElem?_eq_getElem h]
  rfl

/-- Under in-bounds operands the naive inner loop succeeds and returns
the pure fold `dotNaiveVal`. -/
theorem dotNaive_eq_val [Zero α] [Add α] [Mul α] {mul1 mul2 : List α}
    {n : Nat} (h1 : mul1.length = n * n) (h2 : mul2.length = n * n)
    {i j : Nat} (hi : i < n) (hj : j < n) :
    dotNaive mul1 mul2 n i j = some (dotNaiveVal mul1 mul2 n i j) := by
  unfold dotNaive dotNaiveVal
  refine foldl_opt_add (List.range n)
    (fun k => (mul1[index n i k]?).bind fun a =>
      (mul2[index n k j]?).map fun b => a * b)
    (fun k => mul1.getD (index n i k) 0 * mul2.getD (index n k j) 0)
    (fun k hk => ?_) 0
  have hk2 := List.mem_range.mp hk
  have e1 : index n i k < mul1.length := by rw [h1]; exact index_lt hi hk2
  have e2 : index n k j < mul2.length := by rw [h2]; exact index_lt hk2 hj
  simp only [getElem?_eq_getD e1, getElem?_eq_getD e2, Option.some_bind]
  rfl

/-- The transposed inner loop coincides with the naive one whenever its
second operand satisfies the transpose relation. -/
theorem dotTrans_eq_dotNaive [Zero α] [Add α] [Mul α]
    {mul1 mul2 t : List α} {n : Nat}
    (ht : ∀ a b, a < n → b < n → t[index n a b]? = mul2[index n b a]?)
    {i j : Nat} (hj : j < n) :
    dotTrans mul1 t n i j = dotNaive mul1 mul2 n i j := by
  unfold dotTrans dotNaive
  apply foldl_congr_mem
  intro k hk s
  rw [ht j k hj (List.mem_range.mp hk)]

/-- The double write loop only depends on the cell values `f i j` with
`i, j < n`. -/
theorem gridWrite_congr {f g : Nat → Nat → Option α} {n : Nat}
    {init : Option (List α)}
    (h : ∀ i j, i < n → j < n → f i j = g i j) :
    gridWrite f n init = gridWrite g n init := by
  unfold gridWrite gridWriteUpTo
  apply foldl_congr_mem
  intro i hi acc
  unfold rowWrite
  apply foldl_congr_mem
  intro j hj acc2
  rw [h i j (List.mem_range.mp hi) (List.mem_range.mp hj)]

/-- Functional specification of `buildTranspose`: it succeeds on `n*n`
buffers and `T[index(i,j)] = M[index(j,i)]` for all `i, j < n`. -/
theorem buildTranspose_spec {mul mulT : List α} {n : Nat}
    (h1 : mul.length = n * n) (h2 : mulT.length = n * n) :
    ∃ t, buildTranspose mul mulT n = some t ∧ t.length = n * n ∧
      ∀ i j, i < n → j < n → t[index n i j]? = mul[index n j i]? := by
  rw [buildTranspose_eq_grid]
  exact gridWrite_spec _ n
    (fun i j hi hj => isSome_of_lt (by rw [h1]; exact index_lt hj hi))
    mulT h2

/-- Functional specification of `multiplyNaive`: it succeeds on `n*n`
buffers and each cell holds the inner-product fold. -/
theorem multiplyNaive_spec [Zero α] [Add α] [Mul α]
    {mul1 mul2 res : List α} {n : Nat} (h1 : mul1.length = n * n)
    (h2 : mul2.length = n * n) (hres : res.length = n * n) :
    ∃ r, multiplyNaive mul1 mul2 res n = some r ∧ r.length = n * n ∧
      ∀ i j, i < n → j < n →
        r[index n i j]? = some (dotNaiveVal mul1 mul2 n i j) := by
  rw [multiplyNaive_eq_grid]
  obtain ⟨r, hr, hlen, hval⟩ :=
    gridWrite_spec (fun i j => dotNaive mul1 mul2 n i j) n
      (fun i j hi hj => by
        show (dotNaive mul1 mul2 n i j).isSome
        rw [dotNaive_eq_val h1 h2 hi hj]; rfl) res hres
  exact ⟨r, hr, hlen, fun i j hi hj => by
    rw [hval i j hi hj, dotNaive_eq_val h1 h2 hi hj]⟩

/-- The checksum loop succeeds on an `n*n` result buffer and returns
the pure fold `checksumVal`. -/
theorem checksum_eq_val [Zero α] [Add α] {res : List α} {n : Nat}
    (h : res.length = n * n) :
    checksum res n = some (checksumVal res n) := by
  unfold checksum checksumVal
  refine foldl_opt_add (List.range (n * n)) (fun p => res[p]?)
    (fun p => res.getD p 0) (fun p hp => ?_) 0
  exact getElem?_eq_getD (by rw [h]; exact List.mem_range.mp hp)

/-- Transpose-then-multiply computes *the same `Option` value* as the
naive kernel: the two kernels traverse `k` in the same order over the
same operand values, so with arbitrary (lawless) `Add`/`Mul` the results
are identical — the floating-point reading of bit-exact equality. -/
theorem transpose_pipeline_eq_naive [Zero α] [Add α] [Mul α]
    {mul1 mul2 mulT res : List α} {n : Nat} (h1 : mul1.length = n * n)
    (h2 : mul2.length = n * n) (hT : mulT.length = n * n)
    (hres : res.length = n * n) :
    (buildTranspose mul2 mulT n).bind
        (fun t => multiplyWithTranspose mul1 t res n)
      = multiplyNaive mul1 mul2 res n := by
  obtain ⟨t, htp, htlen, htval⟩ := buildTranspose_spec h2 hT
  rw [htp, Option.some_bind, multiplyWithTranspose_eq_grid,
    multiplyNaive_eq_grid]
  exact gridWrite_congr fun i j hi hj =>
    dotTrans_eq_dotNaive htval hj

/-- Under in-bounds operands the transposed inner loop succeeds and
returns the pure fold `dotTransVal`. -/
theorem dotTrans_eq_val [Zero α] [Add α] [Mul α] {mul1 mul2T : List α}
    {n : Nat} (h1 : mul1.length = n * n) (h2 : mul2T.length = n * n)
    {i j : Nat} (hi : i < n) (hj : j < n) :
    dotTrans mul1 mul2T n i j = some (dotTransVal mul1 mul2T n i j) := by
  unfold dotTrans dotTransVal
  refine foldl_opt_add (List.range n)
    (fun k => (mul1[index n i k]?).bind fun a =>
      (mul2T[index n j k]?).map fun b => a * b)
    (fun k => mul1.getD (index n i k) 0 * mul2T.getD (index n j k) 0)
    (fun k hk => ?_) 0
  have hk2 := List.mem_range.mp hk
  have e1 : index n i k < mul1.length := by rw [h1]; exact index_lt hi hk2
  have e2 : index n j k < mul2T.length := by rw [h2]; exact index_lt hj hk2
  simp only [getElem?_eq_getD e1, getElem?_eq_getD e2, Option.some_bind]
  rfl

/-- Functional specification of `multiplyWithTranspose`: it succeeds
on `n*n` buffers and each cell holds the transposed inner-product
fold. -/
theorem multiplyWithTranspose_spec [Zero α] [Add α] [Mul α]
    {mul1 mul2T res : List α} {n : Nat} (h1 : mul1.length = n * n)
    (h2 : mul2T.length = n * n) (hres : res.length = n * n) :
    ∃ r, multiplyWithTranspose mul1 mul2T res n = some r ∧
      r.length = n * n ∧
      ∀ i j, i < n → j < n →
        r[index n i j]? = some (dotTransVal mul1 mul2T n i j) := by
  rw [multiplyWithTranspose_eq_grid]
  obtain ⟨r, hr, hlen, hval⟩ :=
    gridWrite_spec (fun i j => dotTrans mul1 mul2T n i j) n
      (fun i j hi hj => by
        show (dotTrans mul1 mul2T n i j).isSome
        rw [dotTrans_eq_val h1 h2 hi hj]; rfl) res hres
  exact ⟨r, hr, hlen, fun i j hi hj => by
    rw [hval i j hi hj, dotTrans_eq_val h1 h2 hi hj]⟩

/-! ## Sum views of the pure folds -/

theorem dotNaiveVal_eq_sum {β : Type u} [AddCommMonoid β] [Mul β]
    (mul1 mul2 : List β) (n i j : Nat) :
    dotNaiveVal mul1 mul2 n i j
      = ∑ k ∈ Finset.range n,
          mul1.getD (index n i k) 0 * mul2.getD (index n k j) 0 := by
  have := foldl_add_eq_sum
    (fun k => mul1.getD (index n i k) 0 * mul2.getD (index n k j) 0) n 0
  unfold dotNaiveVal
  simpa using this

theorem checksumVal_eq_sum {β : Type u} [AddCommMonoid β]
    (res : List β) (n : Nat) :
    checksumVal res n = ∑ p ∈ Finset.range (n * n), res.getD p 0 := by
  have := foldl_add_eq_sum (fun p => res.getD p 0) (n * n) 0
  unfold checksumVal
  simpa using this

/-! ## Behaviour of `main` -/

/-- When no argument contains `"transpose"`, `main` runs the naive
kernel on the generated matrices and labels the report `"naive"`. -/
theorem mainRun_naive [Zero α] [Add α] [Mul α] (argv : List String)
    (entropy : Nat) (mt : Nat → Nat → α) (n : Nat)
    (hb : (argv.any fun s => strContains s "transpose") = false) :
    ∃ r c,
      multiplyNaive (genMul1 mt n) (genMul2 mt n)
          (List.replicate (n * n) 0) n = some r ∧
      checksum r n = some c ∧
      mainRun argv entropy mt n
        = some ⟨genMul1 mt n, genMul2 mt n, "naive", r, c⟩ := by
  have hg1 : (genMul1 mt n : List α).length = n * n := by
    simp [genMul1]
  have hg2 : (genMul2 mt n : List α).length = n * n := by
    simp [genMul2]
  have hrep : (List.replicate (n * n) (0 : α)).length = n * n := by simp
  obtain ⟨r, hr, hrlen, _⟩ := multiplyNaive_spec hg1 hg2 hrep
  refine ⟨r, checksumVal r n, hr, checksum_eq_val hrlen, ?_⟩
  unfold mainRun
  simp only [hb, Bool.not_false, if_true, hr, Option.some_bind,
    checksum_eq_val hrlen]
  rfl

/-- When some argument contains `"transpose"`, `main` transposes the
second matrix, runs the transposed kernel, and labels the report
`"transposed"`. -/
theorem mainRun_transposed [Zero α] [Add α] [Mul α] (argv : List String)
    (entropy : Nat) (mt : Nat → Nat → α) (n : Nat)
    (hb : (argv.any fun s => strContains s "transpose") = true) :
    ∃ t r c,
      buildTranspose (genMul2 mt n) (List.replicate (n * n) 0) n = some t ∧
      multiplyWithTranspose (genMul1 mt n) t
          (List.replicate (n * n) 0) n = some r ∧
      checksum r n = some c ∧
      mainRun argv entropy mt n
        = some ⟨genMul1 mt n, genMul2 mt n, "transposed", r, c⟩ := by
  have hg1 : (genMul1 mt n : List α).length = n * n := by
    simp [genMul1]
  have hg2 : (genMul2 mt n : List α).length = n * n := by
    simp [genMul2]
  have hrep : (List.replicate (n * n) (0 : α)).length = n * n := by simp
  obtain ⟨t, ht, htlen, _⟩ := buildTranspose_spec hg2 hrep
  obtain ⟨r, hr, hrlen, _⟩ := multiplyWithTranspose_spec hg1 htlen hrep
  refine ⟨t, r, checksumVal r n, ht, hr, checksum_eq_val hrlen, ?_⟩
  unfold mainRun
  simp only [hb, Bool.not_true, if_false, ht, hr, Option.some_bind,
    checksum_eq_val hrlen]
  rfl

/-- Function `main` always succeeds, and the generated input matrices are the
fixed-seed stream values regardless of arguments or entropy. -/
theorem mainRun_fields [Zero α] [Add α] [Mul α] (argv : List String)
    (entropy : Nat) (mt : Nat → Nat → α) (n : Nat) :
    ∃ o, mainRun argv entropy mt n = some o ∧
      o.mul1 = genMul1 mt n ∧ o.mul2 = genMul2 mt n := by
  cases hb : argv.any fun s => strContains s "transpose" with
  | false =>
    obtain ⟨r, c, _, _, hm⟩ := mainRun_naive argv entropy mt n hb
    exact ⟨_, hm, rfl, rfl⟩
  | true =>
    obtain ⟨t, r, c, _, _, _, hm⟩ := mainRun_transposed argv entropy mt n hb
    exact ⟨_, hm, rfl, rfl⟩

/-! ## Identity-matrix facts -/

theorem identityMat_length {β : Type u} [Zero β] [One β] (n : Nat) :
    (identityMat β n).length = n * n := by
  simp [identityMat]

theorem identityMat_getD {β : Type u} [Zero β] [One β] {n i k : Nat}
    (hi : i < n) (hk : k < n) :
    (identityMat β n).getD (index n i k) 0 = if i = k then 1 else 0 := by
  unfold identityMat
  have hlt : index n i k < n * n := index_lt hi hk
  rw [List.getD_eq_getElem?_getD, List.getElem?_map, List.getElem?_range hlt]
  simp [index_div hk, index_mod hk]

theorem dotNaiveVal_identity {β : Type u} [NonAssocSemiring β]
    {B : List β} {n i j : Nat} (hi : i < n) (hj : j < n) :
    dotNaiveVal (identityMat β n) B n i j = B.getD (index n i j) 0 := by
  rw [dotNaiveVal_eq_sum]
  have h : ∀ k ∈ Finset.range n,
      (identityMat β n).getD (index n i k) 0 * B.getD (index n k j) 0
        = if i = k then B.getD (index n k j) 0 else 0 := by
    intro k hk
    rw [identityMat_getD hi (Finset.mem_range.mp hk)]
    by_cases h2 : i = k <;> simp [h2]
  rw [Finset.sum_congr rfl h,
    Finset.sum_ite_eq (Finset.range n) i fun k => B.getD (index n k j) 0]
  simp [Finset.mem_range.mpr hi]

/-- Multiplying by the identity on the left returns `B` itself, for any
scratch output buffer of the right size. -/
theorem multiplyNaive_identity {β : Type u} [NonAssocSemiring β]
    {B res : List β} {n : Nat} (hB : B.length = n * n)
    (hres : res.length = n * n) :
    multiplyNaive (identityMat β n) B res n = some B := by
  obtain ⟨r, hr, hrlen, hval⟩ :=
    multiplyNaive_spec (identityMat_length n) hB hres
  rw [hr]
  congr 1
  apply List.ext_getElem?
  intro p
  by_cases hp : p < n * n
  · obtain ⟨he, hdiv, hmod⟩ := index_surj hp
    have hb : p < B.length := by rw [hB]; exact hp
    rw [he, hval _ _ hdiv hmod, dotNaiveVal_identity hdiv hmod,
      ← he, getElem?_eq_getD hb]
  · rw [List.getElem?_eq_none (by omega : r.length ≤ p),
      List.getElem?_eq_none (by omega : B.length ≤ p)]

/-! ## Range bounds -/

theorem dotNaiveVal_bounds {mul1 mul2 : List ℝ} {n i j : Nat}
    (hb1 : ∀ p, p < n * n → 0 ≤ mul1.getD p 0 ∧ mul1.getD p 0 < 1)
    (hb2 : ∀ p, p < n * n → 0 ≤ mul2.getD p 0 ∧ mul2.getD p 0 < 1)
    (hi : i < n) (hj : j < n) :
    0 ≤ dotNaiveVal mul1 mul2 n i j ∧ dotNaiveVal mul1 mul2 n i j ≤ n := by
  rw [dotNaiveVal_eq_sum]
  constructor
  · apply Finset.sum_nonneg
    intro k hk
    have hk2 := Finset.mem_range.mp hk
    obtain ⟨ha, _⟩ := hb1 _ (index_lt hi hk2)
    obtain ⟨hb, _⟩ := hb2 _ (index_lt hk2 hj)
    exact mul_nonneg ha hb
  · have hone : ∀ k ∈ Finset.range n,
        mul1.getD (index n i k) 0 * mul2.getD (index n k j) 0 ≤ (1 : ℝ) := by
      intro k hk
      have hk2 := Finset.mem_range.mp hk
      obtain ⟨ha, ha1⟩ := hb1 _ (index_lt hi hk2)
      obtain ⟨hb, hb1v⟩ := hb2 _ (index_lt hk2 hj)
      exact mul_le_one₀ (le_of_lt ha1) hb (le_of_lt hb1v)
    calc (∑ k ∈ Finset.range n,
            mul1.getD (index n i k) 0 * mul2.getD (index n k j) 0)
        ≤ (Finset.range n).card • (1 : ℝ) :=
          Finset.sum_le_card_nsmul _ _ 1 hone
      _ = n := by simp

/-! ## Claims -/

/-- C1: For every n > 0 and every pair of n×n matrices A and B (row-major
vectors of length n²), `multiplyNaive(A, B)` equals
`multiplyWithTranspose(A, buildTranspose(B))` element for element — here
even as identical `Option (List α)` values — and the checksums computed
from the two results are identical.  The statement is over an arbitrary
`Zero`/`Add`/`Mul` structure with *no laws assumed*, so it applies to
IEEE-754 doubles verbatim: both kernels accumulate over k in the same
order on the same operand values, hence the results are identical, not
merely equal up to rounding. -/
theorem naive_equals_transposed_pipeline [Zero α] [Add α] [Mul α]
    {mul1 mul2 mulT res : List α} {n : Nat} (hn : 0 < n)
    (h1 : mul1.length = n * n) (h2 : mul2.length = n * n)
    (hT : mulT.length = n * n) (hres : res.length = n * n) :
    (buildTranspose mul2 mulT n).bind
        (fun t => multiplyWithTranspose mul1 t res n)
      = multiplyNaive mul1 mul2 res n ∧
    (buildTranspose mul2 mulT n).bind
        (fun t => (multiplyWithTranspose mul1 t res n).bind fun r =>
          checksum r n)
      = (multiplyNaive mul1 mul2 res n).bind fun r => checksum r n := by
  have h := transpose_pipeline_eq_naive h1 h2 hT hres
  refine ⟨h, ?_⟩
  rw [← h]
  cases buildTranspose mul2 mulT n with
  | none => rfl
  | some t => rfl

/-- Witness for C1 at n = 1, A = [2], B = [3] over ℕ: the hypotheses
hold, both pipelines agree, and the common result is [6]. -/
theorem naive_equals_transposed_pipeline_witness :
    (0 < 1 ∧ [(2 : ℕ)].length = 1 * 1) ∧
    ((buildTranspose [3] [0] 1).bind
        (fun t => multiplyWithTranspose [2] t [0] 1)
      = multiplyNaive ([2] : List ℕ) [3] [0] 1 ∧
    (buildTranspose [3] [0] 1).bind
        (fun t => (multiplyWithTranspose [2] t [0] 1).bind fun r =>
          checksum r 1)
      = (multiplyNaive ([2] : List ℕ) [3] [0] 1).bind fun r =>
          checksum r 1) ∧
    multiplyNaive ([2] : List ℕ) [3] [0] 1 = some [6] :=
  ⟨⟨by decide, rfl⟩,
    naive_equals_transposed_pipeline (by decide) rfl rfl rfl rfl,
    by decide⟩

/-- C2: For every n > 0 and inputs A, B of size n², `multiplyNaive`
succeeds and every cell satisfies
`res[i*n + j] = Σ_{k<n} A[i*n + k] · B[k*n + j]`; the inner sum is the
left fold of additions over k in increasing order (`dotNaiveVal`) and
each cell is written exactly once by the loop (established by
`rowWrite_spec`/`gridWriteUpTo_spec`, which track that every position is
overwritten once and otherwise untouched). -/
theorem multiplyNaive_cell_formula {β : Type u} [AddCommMonoid β] [Mul β]
    {mul1 mul2 res : List β} {n : Nat} (hn : 0 < n)
    (h1 : mul1.length = n * n) (h2 : mul2.length = n * n)
    (hres : res.length = n * n) :
    ∃ r, multiplyNaive mul1 mul2 res n = some r ∧ r.length = n * n ∧
      ∀ i j, i < n → j < n →
        r[i * n + j]? = some (∑ k ∈ Finset.range n,
          mul1.getD (i * n + k) 0 * mul2.getD (k * n + j) 0) := by
  obtain ⟨r, hr, hlen, hval⟩ := multiplyNaive_spec h1 h2 hres
  refine ⟨r, hr, hlen, fun i j hi hj => ?_⟩
  have h3 := hval i j hi hj
  rw [dotNaiveVal_eq_sum] at h3
  simpa [index] using h3

/-- Witness for C2 at n = 2 over ℕ with A = [1,2,3,4], B = [5,6,7,8]:
the hypotheses hold, the cell formula applies, and the computed result
is [19, 22, 43, 50]. -/
theorem multiplyNaive_cell_formula_witness :
    (0 < 2 ∧ [(1 : ℕ), 2, 3, 4].length = 2 * 2) ∧
    (∃ r, multiplyNaive ([1, 2, 3, 4] : List ℕ) [5, 6, 7, 8] [0, 0, 0, 0] 2
        = some r ∧ r.length = 2 * 2 ∧
      ∀ i j, i < 2 → j < 2 →
        r[i * 2 + j]? = some (∑ k ∈ Finset.range 2,
          ([1, 2, 3, 4] : List ℕ).getD (i * 2 + k) 0 *
            ([5, 6, 7, 8] : List ℕ).getD (k * 2 + j) 0)) ∧
    multiplyNaive ([1, 2, 3, 4] : List ℕ) [5, 6, 7, 8] [0, 0, 0, 0] 2
      = some [19, 22, 43, 50] :=
  ⟨⟨by decide, rfl⟩,
    multiplyNaive_cell_formula (by decide) rfl rfl rfl,
    by decide⟩

/-- C3: For every n > 0 and every n×n matrix M, `buildTranspose(M, T, n)`
succeeds and the output satisfies `T[i*n + j] = M[j*n + i]` for all
`i, j < n`.  The source matrix `M` is passed immutably (const reference
in the source, a pure argument here), so it is left unchanged by
construction; source and destination are distinct buffers, matching the
no-aliasing requirement. -/
theorem buildTranspose_correct {mul mulT : List α} {n : Nat} (hn : 0 < n)
    (h1 : mul.length = n * n) (h2 : mulT.length = n * n) :
    ∃ t, buildTranspose mul mulT n = some t ∧ t.length = n * n ∧
      ∀ i j, i < n → j < n → t[i * n + j]? = mul[j * n + i]? := by
  obtain ⟨t, ht, hlen, hval⟩ := buildTranspose_spec h1 h2
  exact ⟨t, ht, hlen, fun i j hi hj => hval i j hi hj⟩

/-- Witness for C3 at n = 2 over ℕ with M = [5,6,7,8]: the hypotheses
hold, the transpose contract applies, and the computed transpose is
[5, 7, 6, 8]. -/
theorem buildTranspose_correct_witness :
    (0 < 2 ∧ [(5 : ℕ), 6, 7, 8].length = 2 * 2) ∧
    (∃ t, buildTranspose ([5, 6, 7, 8] : List ℕ) [0, 0, 0, 0] 2 = some t ∧
      t.length = 2 * 2 ∧
      ∀ i j, i < 2 → j < 2 →
        t[i * 2 + j]? = ([5, 6, 7, 8] : List ℕ)[j * 2 + i]?) ∧
    buildTranspose ([5, 6, 7, 8] : List ℕ) [0, 0, 0, 0] 2
      = some [5, 7, 6, 8] :=
  ⟨⟨by decide, rfl⟩,
    buildTranspose_correct (by decide) rfl rfl,
    by decide⟩

/-- C4: Transpose is an involution: for every n > 0 and every n×n matrix
M, applying `buildTranspose` twice (M → T → T2) yields T2 equal to M —
here as full list equality, hence element-wise equality. -/
theorem transpose_involution {mul t0 t1 : List α} {n : Nat} (hn : 0 < n)
    (h : mul.length = n * n) (h0 : t0.length = n * n)
    (h1 : t1.length = n * n) :
    ∃ t t2, buildTranspose mul t0 n = some t ∧
      buildTranspose t t1 n = some t2 ∧ t2 = mul := by
  obtain ⟨t, ht, htlen, htval⟩ := buildTranspose_spec h h0
  obtain ⟨t2, ht2, ht2len, ht2val⟩ := buildTranspose_spec htlen h1
  refine ⟨t, t2, ht, ht2, ?_⟩
  apply List.ext_getElem?
  intro p
  by_cases hp : p < n * n
  · obtain ⟨he, hdiv, hmod⟩ := index_surj hp
    conv_lhs => rw [he]
    conv_rhs => rw [he]
    rw [ht2val _ _ hdiv hmod, htval _ _ hmod hdiv]
  · rw [List.getElem?_eq_none (by omega : t2.length ≤ p),
      List.getElem?_eq_none (by omega : mul.length ≤ p)]

/-- Witness for C4 at n = 2 over ℕ with M = [1,2,3,4]: the hypotheses
hold, the involution applies, and the two concrete transposes are
[1, 3, 2, 4] and back to [1, 2, 3, 4]. -/
theorem transpose_involution_witness :
    (0 < 2 ∧ [(1 : ℕ), 2, 3, 4].length = 2 * 2) ∧
    (∃ t t2, buildTranspose ([1, 2, 3, 4] : List ℕ) [0, 0, 0, 0] 2
        = some t ∧
      buildTranspose t [0, 0, 0, 0] 2 = some t2 ∧ t2 = [1, 2, 3, 4]) ∧
    buildTranspose ([1, 2, 3, 4] : List ℕ) [0, 0, 0, 0] 2
      = some [1, 3, 2, 4] :=
  ⟨⟨by decide, rfl⟩,
    transpose_involution (by decide) rfl rfl rfl,
    by decide⟩

/-- C5: Matrix generation is deterministic and mode-independent: for any
two invocations (any argument vectors, any `random_device` entropy) with
the same PRNG stream `mt` and dimension n, `main` succeeds and produces
the *same* pair (mul1, mul2) in both runs; moreover the matrices are
exactly the stream values at the fixed seed `seedConst = 89899898` — the
`std::random_device` (the `entropy` parameter) is never consulted, so
every process invocation generates the same inputs. -/
theorem generation_deterministic [Zero α] [Add α] [Mul α]
    (argv argv2 : List String) (entropy entropy2 : Nat)
    (mt : Nat → Nat → α) (n : Nat) :
    ∃ o o2, mainRun argv entropy mt n = some o ∧
      mainRun argv2 entropy2 mt n = some o2 ∧
      o.mul1 = o2.mul1 ∧ o.mul2 = o2.mul2 ∧
      o.mul1 = (List.range (n * n)).map (fun i => mt seedConst i) ∧
      o.mul2 = (List.range (n * n)).map (fun i => mt seedConst (n * n + i)) := by
  obtain ⟨o, ho, hm1, hm2⟩ := mainRun_fields argv entropy mt n
  obtain ⟨o2, ho2, hm12, hm22⟩ := mainRun_fields argv2 entropy2 mt n
  exact ⟨o, o2, ho, ho2, by rw [hm1, hm12], by rw [hm2, hm22], hm1, hm2⟩

/-- C6: If A is the n×n identity matrix then either kernel returns B
unchanged (as a full list), and the checksum computed from the result —
which is B itself — is the sum of all of B's entries (the bit pattern
printed by `main` is obtained by reinterpreting this very value, so
equal sums give equal bit patterns). -/
theorem identity_multiplication {β : Type u} [NonAssocSemiring β]
    {B res res2 t0 : List β} {n : Nat} (hn : 0 < n)
    (hB : B.length = n * n) (hres : res.length = n * n)
    (hres2 : res2.length = n * n) (ht0 : t0.length = n * n) :
    multiplyNaive (identityMat β n) B res n = some B ∧
    (buildTranspose B t0 n).bind
        (fun t => multiplyWithTranspose (identityMat β n) t res2 n)
      = some B ∧
    checksum B n = some (∑ p ∈ Finset.range (n * n), B.getD p 0) := by
  have hid1 := multiplyNaive_identity hB hres
  have hid2 : multiplyNaive (identityMat β n) B res2 n = some B :=
    multiplyNaive_identity hB hres2
  refine ⟨hid1, ?_, ?_⟩
  · rw [transpose_pipeline_eq_naive (identityMat_length n) hB ht0 hres2,
      hid2]
  · rw [checksum_eq_val hB, checksumVal_eq_sum]

/-- Witness for C6 at n = 2 over ℕ with B = [5,6,7,8]: the hypotheses
hold, identity multiplication applies, and concretely
identityMat = [1,0,0,1] and checksum B = 26. -/
theorem identity_multiplication_witness :
    (0 < 2 ∧ [(5 : ℕ), 6, 7, 8].length = 2 * 2) ∧
    (multiplyNaive (identityMat ℕ 2) [5, 6, 7, 8] [0, 0, 0, 0] 2
        = some [5, 6, 7, 8] ∧
      (buildTranspose ([5, 6, 7, 8] : List ℕ) [0, 0, 0, 0] 2).bind
          (fun t => multiplyWithTranspose (identityMat ℕ 2) t [0, 0, 0, 0] 2)
        = some [5, 6, 7, 8] ∧
      checksum ([5, 6, 7, 8] : List ℕ) 2
        = some (∑ p ∈ Finset.range (2 * 2),
            ([5, 6, 7, 8] : List ℕ).getD p 0)) ∧
    identityMat ℕ 2 = [1, 0, 0, 1] ∧
    checksum ([5, 6, 7, 8] : List ℕ) 2 = some 26 :=
  ⟨⟨by decide, rfl⟩,
    identity_multiplication (by decide) rfl rfl rfl rfl,
    by decide, by decide⟩

/-- C7: Exactly one kernel runs per invocation: `main` computes
`transposeMode` once from `argv` before any work and branches on it a
single time (the `if` in `mainRun`), so the mode is immutable for the
run.  When no argument contains `"transpose"`, the run takes the naive
branch: the label is `"naive"` and the result is exactly what
`multiplyNaive` produces on the generated matrices. -/
theorem default_mode_naive [Zero α] [Add α] [Mul α] (argv : List String)
    (entropy : Nat) (mt : Nat → Nat → α) (n : Nat)
    (h : ∀ s ∈ argv, strContains s "transpose" = false) :
    ∃ o, mainRun argv entropy mt n = some o ∧ o.label = "naive" ∧
      multiplyNaive (genMul1 mt n) (genMul2 mt n)
          (List.replicate (n * n) 0) n = some o.result ∧
      checksum o.result n = some o.sum := by
  have hb : (argv.any fun s => strContains s "transpose") = false := by
    simp only [List.any_eq_false]
    intro s hs
    simp [h s hs]
  obtain ⟨r, c, hr, hc, hm⟩ := mainRun_naive argv entropy mt n hb
  exact ⟨_, hm, rfl, by rw [hr], by rw [hc]⟩

/-- Witness for C7 with argv = ["./benchmark"] (no transpose-selecting
input), the zero stream and n = 1: the hypothesis holds and the run
labels its output "naive". -/
theorem default_mode_naive_witness :
    (∀ s ∈ ["./benchmark"], strContains s "transpose" = false) ∧
    (∃ o, mainRun ["./benchmark"] 0 (fun _ _ => (0 : ℕ)) 1 = some o ∧
      o.label = "naive" ∧
      multiplyNaive (genMul1 (fun _ _ => (0 : ℕ)) 1)
          (genMul2 (fun _ _ => (0 : ℕ)) 1)
          (List.replicate (1 * 1) 0) 1 = some o.result ∧
      checksum o.result 1 = some o.sum) ∧
    (mainRun ["./benchmark"] 0 (fun _ _ => (0 : ℕ)) 1).map MainOut.label
      = some "naive" :=
  ⟨by decide,
    default_mode_naive ["./benchmark"] 0 (fun _ _ => (0 : ℕ)) 1 (by decide),
    by decide⟩

/-- C8: If every entry of A and B lies in [0, 1), then every entry of
the result of either kernel lies in [0, n] (in particular it is a
well-defined non-negative real, the model's reading of "finite"), and
the checksum over all n² result entries is non-negative and bounded by
n³. -/
theorem bounded_inputs_bounded_outputs {mul1 mul2 mulT res : List ℝ}
    {n : Nat} (hn : 0 < n)
    (h1 : mul1.length = n * n) (h2 : mul2.length = n * n)
    (hT : mulT.length = n * n) (hres : res.length = n * n)
    (hb1 : ∀ p, p < n * n → 0 ≤ mul1.getD p 0 ∧ mul1.getD p 0 < 1)
    (hb2 : ∀ p, p < n * n → 0 ≤ mul2.getD p 0 ∧ mul2.getD p 0 < 1) :
    ∃ r, multiplyNaive mul1 mul2 res n = some r ∧
      (buildTranspose mul2 mulT n).bind
          (fun t => multiplyWithTranspose mul1 t res n) = some r ∧
      (∀ p, p < n * n → 0 ≤ r.getD p 0 ∧ r.getD p 0 ≤ n) ∧
      ∃ c, checksum r n = some c ∧ 0 ≤ c ∧ c ≤ (n : ℝ) ^ 3 := by
  obtain ⟨r, hr, hrlen, hval⟩ := multiplyNaive_spec h1 h2 hres
  have hpipe : (buildTranspose mul2 mulT n).bind
      (fun t => multiplyWithTranspose mul1 t res n) = some r := by
    rw [transpose_pipeline_eq_naive h1 h2 hT hres, hr]
  have hent : ∀ p, p < n * n → 0 ≤ r.getD p 0 ∧ r.getD p 0 ≤ n := by
    intro p hp
    obtain ⟨he, hdiv, hmod⟩ := index_surj hp
    have hplen : p < r.length := by rw [hrlen]; exact hp
    have hv := hval _ _ hdiv hmod
    rw [← he, getElem?_eq_getD hplen] at hv
    rw [Option.some.inj hv]
    exact dotNaiveVal_bounds hb1 hb2 hdiv hmod
  refine ⟨r, hr, hpipe, hent, checksumVal r n, checksum_eq_val hrlen,
    ?_, ?_⟩
  · rw [checksumVal_eq_sum]
    apply Finset.sum_nonneg
    intro p hp
    exact (hent p (Finset.mem_range.mp hp)).1
  · rw [checksumVal_eq_sum]
    calc (∑ p ∈ Finset.range (n * n), r.getD p 0)
        ≤ (Finset.range (n * n)).card • (n : ℝ) :=
          Finset.sum_le_card_nsmul _ _ _
            (fun p hp => (hent p (Finset.mem_range.mp hp)).2)
      _ = (n : ℝ) ^ 3 := by
          rw [Finset.card_range, nsmul_eq_mul]
          push_cast
          ring

/-- Witness for C8 at n = 1 with A = B = [1/2]: the hypotheses hold and
the bounds apply (the single result entry is 1/4 ∈ [0,1]). -/
theorem bounded_inputs_bounded_outputs_witness :
    (0 < 1 ∧
      (∀ p, p < 1 * 1 →
        0 ≤ ([(1 : ℝ) / 2]).getD p 0 ∧ ([(1 : ℝ) / 2]).getD p 0 < 1)) ∧
    (∃ r, multiplyNaive [(1 : ℝ) / 2] [(1 : ℝ) / 2] [(0 : ℝ)] 1
        = some r ∧
      (buildTranspose [(1 : ℝ) / 2] [(0 : ℝ)] 1).bind
          (fun t => multiplyWithTranspose [(1 : ℝ) / 2] t [(0 : ℝ)] 1)
        = some r ∧
      (∀ p, p < 1 * 1 → 0 ≤ r.getD p 0 ∧ r.getD p 0 ≤ 1) ∧
      ∃ c, checksum r 1 = some c ∧ 0 ≤ c ∧ c ≤ ((1 : ℕ) : ℝ) ^ 3) := by
  have hb : ∀ p, p < 1 * 1 →
      0 ≤ ([(1 : ℝ) / 2]).getD p 0 ∧ ([(1 : ℝ) / 2]).getD p 0 < 1 := by
    intro p hp
    interval_cases p
    constructor <;> norm_num
  refine ⟨⟨by norm_num, hb⟩, ?_⟩
  have h := @bounded_inputs_bounded_outputs [(1 : ℝ) / 2] [(1 : ℝ) / 2]
    [(0 : ℝ)] [(0 : ℝ)] 1 (by norm_num) rfl rfl rfl rfl hb hb
  simpa using h

/-- C9: Mode selection scans every element of argv — including argv[0],
the program's own path — and selects transposed mode iff some argv
string contains "transpose" as a substring; concretely, a binary whose
file path contains "transpose" runs the transposed kernel with no
arguments given. -/
theorem argv_scan_selects_mode [Zero α] [Add α] [Mul α]
    (argv : List String) (entropy : Nat) (mt : Nat → Nat → α) (n : Nat) :
    (∃ o, mainRun argv entropy mt n = some o ∧
      (o.label = "transposed" ↔
        (argv.any fun s => strContains s "transpose") = true)) ∧
    (mainRun ["./benchmark_transpose"] 0 (fun _ _ => (0 : ℕ)) 1).map
        MainOut.label = some "transposed" := by
  constructor
  · cases hb : argv.any fun s => strContains s "transpose" with
    | false =>
      obtain ⟨r, c, _, _, hm⟩ := mainRun_naive argv entropy mt n hb
      refine ⟨_, hm, ?_⟩
      show ("naive" = "transposed") ↔ (false = true)
      simp
    | true =>
      obtain ⟨t, r, c, _, _, _, hm⟩ := mainRun_transposed argv entropy mt n hb
      refine ⟨_, hm, ?_⟩
      show ("transposed" = "transposed") ↔ (true = true)
      simp
  · decide

/-- C10: Every array access in `buildTranspose`, `multiplyNaive`,
`multiplyWithTranspose` and the checksum loop is in bounds: for
`i, j < n` the flat index `i*n + j` is below n², and on buffers of
length n² every `Option`-returning access succeeds — none of the four
routines ever returns `none`. -/
theorem memory_safety [Zero α] [Add α] [Mul α]
    {mul1 mul2 mulT res : List α} {n : Nat}
    (h1 : mul1.length = n * n) (h2 : mul2.length = n * n)
    (hT : mulT.length = n * n) (hres : res.length = n * n) :
    (∀ i j, i < n → j < n → i * n + j < n * n) ∧
    (buildTranspose mul2 mulT n).isSome ∧
    (multiplyNaive mul1 mul2 res n).isSome ∧
    (multiplyWithTranspose mul1 mulT res n).isSome ∧
    ∀ r, multiplyNaive mul1 mul2 res n = some r →
      (checksum r n).isSome := by
  refine ⟨fun i j hi hj => index_lt hi hj, ?_, ?_, ?_, ?_⟩
  · obtain ⟨t, ht, _, _⟩ := buildTranspose_spec h2 hT
    rw [ht]; rfl
  · obtain ⟨r, hr, _, _⟩ := multiplyNaive_spec h1 h2 hres
    rw [hr]; rfl
  · obtain ⟨r, hr, _, _⟩ := multiplyWithTranspose_spec h1 hT hres
    rw [hr]; rfl
  · intro r hr
    obtain ⟨r2, hr2, hlen2, _⟩ := multiplyNaive_spec h1 h2 hres
    rw [hr] at hr2
    have he : r = r2 := Option.some.inj hr2
    rw [checksum_eq_val (by rw [he]; exact hlen2)]
    rfl

/-- Witness for C10 at n = 1 over ℕ: the length hypotheses hold, safety
applies, and all four routines concretely return `some`. -/
theorem memory_safety_witness :
    ([(2 : ℕ)].length = 1 * 1) ∧
    ((∀ i j, i < 1 → j < 1 → i * 1 + j < 1 * 1) ∧
      (buildTranspose ([3] : List ℕ) [0] 1).isSome ∧
      (multiplyNaive ([2] : List ℕ) [3] [0] 1).isSome ∧
      (multiplyWithTranspose ([2] : List ℕ) [0] [0] 1).isSome ∧
      ∀ r, multiplyNaive ([2] : List ℕ) [3] [0] 1 = some r →
        (checksum r 1).isSome) ∧
    (checksum ([6] : List ℕ) 1).isSome :=
  ⟨rfl, memory_safety rfl rfl rfl rfl, by decide⟩

end MatrixBench
